import Mathlib

/-!
# Tour-of-Go exercises: equivalent binary trees and the 'A' reader

Shallow embedding of `src/concurrency/exercise-equivalent-binary-trees.go`
(`WalkImpl`, `Walk`, `Same`) and of `src/exercise-reader.go` (`MyReader.Read`).

* `WalkImpl` / `Walk` are embedded as recursive functions in state-passing style: the
  state is the list of outcomes of the successive `select` statements (the race between
  `ch <- t.Value` and `<-quit`) and the result is the list of channel events performed.
* `Same` starts two goroutines and is embedded as a transition system: each goroutine
  is a control state, a `Move` is one scheduling decision, channels are unbuffered
  (a send and the matching receive are one joint move).
* `Producer.runOffer` runs one producer control state on its own against an environment
  that may also leave a select without a partner (the goroutine then stays blocked).
-/

namespace EquivalentBinaryTrees

/-! ## Data model -/

/-- Go type `tree.Tree` (`Left *Tree; Value int; Right *Tree`); `nil` is the nil pointer. -/
inductive Tree where
  | nil : Tree
  | node (Left : Tree) (Value : Int) (Right : Tree) : Tree
  deriving DecidableEq, Repr

/-- In-order value sequence of a tree: left subtree, value, right subtree. -/
def inorder : Tree → List Int
  | Tree.nil => []
  | Tree.node l v r => inorder l ++ v :: inorder r

/-- Length of the longest common initial segment of two sequences. -/
def lcp : List Int → List Int → Nat
  | x :: xs, y :: ys => if x = y then lcp xs ys + 1 else 0
  | _, _ => 0

/-! ## `WalkImpl` and `Walk` as functions of the select outcomes -/

/-- Which case of the `select` in `WalkImpl` fires. -/
inductive Choice where
  | send : Choice
  | quit : Choice
  deriving DecidableEq, Repr

/-- A channel operation performed by a producer: `ch <- v`, `<-quit`, `close(ch)`. -/
inductive Event where
  | send (v : Int) : Event
  | recvQuit : Event
  | close : Event
  deriving DecidableEq, Repr

/-- Is the event a value published on `ch`. -/
def Event.isSend : Event → Bool
  | Event.send _ => true
  | _ => false

/-- Outcome of the next `select`: the head of the outcome list; once the list is
exhausted the cancellation signal does not fire any more and the send is taken. Every
select is resolved here, so `WalkImpl` and `Walk` below describe the runs in which the
goroutine is never left blocked; a select that finds no partner is in
`Producer.stepOffer` and in the transition system of `Same`. -/
def nextChoice : List Choice → Choice × List Choice
  | [] => (Choice.send, [])
  | c :: env => (c, env)

/-- Go `WalkImpl(t, ch, quit)`: returns the events performed and the remaining outcomes.
A nil tree returns at once; otherwise the left subtree is walked, the select is run,
and only the send case goes on to the right subtree (the quit case returns from this
call). -/
def WalkImpl : Tree → List Choice → List Event × List Choice
  | Tree.nil, env => ([], env)
  | Tree.node l v r, env =>
    match nextChoice (WalkImpl l env).2 with
    | (Choice.send, env2) =>
      ((WalkImpl l env).1 ++ Event.send v :: (WalkImpl r env2).1, (WalkImpl r env2).2)
    | (Choice.quit, env2) => ((WalkImpl l env).1 ++ [Event.recvQuit], env2)

/-- Go `Walk(t, ch, quit)`: `WalkImpl` followed by `close(ch)`. -/
def Walk (t : Tree) (env : List Choice) : List Event :=
  (WalkImpl t env).1 ++ [Event.close]

/-- Does a value get published on `ch` after the cancellation signal was observed. -/
def publishesAfterQuit : List Event → Bool
  | [] => false
  | Event.recvQuit :: es => es.any Event.isSend
  | _ :: es => publishesAfterQuit es

/-! ## The goroutines of `Same` as a transition system -/

/-- Work a producer goroutine still has inside `WalkImpl`, innermost first. -/
inductive Frame where
  /-- a call `WalkImpl(t, ch, quit)` about to start -/
  | call (t : Tree) : Frame
  /-- an activation suspended at its `select` with `t.Value = v`; after the send case
  it still has to run `WalkImpl(t.Right, ch, quit)` with `t.Right = r` -/
  | select (v : Int) (r : Tree) : Frame
  deriving DecidableEq, Repr

/-- Control state of a goroutine running `Walk(t, ch, quit)`: inside `WalkImpl` with
the given frames (with no frame left the next statement is `close(ch)`), or returned
after `close(ch)`. -/
inductive Producer where
  | run (k : List Frame) : Producer
  | done : Producer
  deriving DecidableEq, Repr

/-- What a producer does next. -/
inductive Pending where
  /-- a step needing no partner: the nil test, the recursive call, a return -/
  | internal (next : Producer) : Pending
  /-- blocked in `select { case ch <- v: ... case <-quit: return }` -/
  | select (v : Int) (onSend onQuit : Producer) : Pending
  /-- the statement `close(ch)` -/
  | close (next : Producer) : Pending
  /-- the goroutine has exited -/
  | finished : Pending

/-- The next statement of a producer, from the body of `WalkImpl` and `Walk`. -/
def Producer.pending : Producer → Pending
  | Producer.run (Frame.call Tree.nil :: k) => Pending.internal (Producer.run k)
  | Producer.run (Frame.call (Tree.node l v r) :: k) =>
    Pending.internal (Producer.run (Frame.call l :: Frame.select v r :: k))
  | Producer.run (Frame.select v r :: k) =>
    Pending.select v (Producer.run (Frame.call r :: k)) (Producer.run k)
  | Producer.run [] => Pending.close Producer.done
  | Producer.done => Pending.finished

/-- One step of a producer on its own, the select resolved by the outcome list as in
`WalkImpl`: the events performed, the next control state, the remaining outcomes. -/
def Producer.stepEnv (p : Producer) (env : List Choice) :
    Option (List Event × Producer × List Choice) :=
  match p.pending with
  | Pending.internal q => some ([], q, env)
  | Pending.select v onSend onQuit =>
    match nextChoice env with
    | (Choice.send, env2) => some ([Event.send v], onSend, env2)
    | (Choice.quit, env2) => some ([Event.recvQuit], onQuit, env2)
  | Pending.close q => some ([Event.close], q, env)
  | Pending.finished => none

/-- At most `n` steps of a producer on its own. -/
def Producer.runEnv : Nat → Producer → List Choice → List Event × Producer × List Choice
  | 0, p, env => ([], p, env)
  | n + 1, p, env =>
    match p.stepEnv env with
    | none => ([], p, env)
    | some (es, q, env2) =>
      (es ++ (Producer.runEnv n q env2).1, (Producer.runEnv n q env2).2)

/-- One step of a producer on its own when the environment may also leave the select
without a partner. The head of the list says what the select finds: `some Choice.send`
a receiver that accepts the value, `some Choice.quit` the cancellation signal, `none`
(or an exhausted list) neither, ever: the unbuffered send has no receiver and `quit`
has not fired, the goroutine stays blocked in the select and there is no step. -/
def Producer.stepOffer (p : Producer) (env : List (Option Choice)) :
    Option (List Event × Producer × List (Option Choice)) :=
  match p.pending with
  | Pending.internal q => some ([], q, env)
  | Pending.select v onSend onQuit =>
    match env with
    | some Choice.send :: env2 => some ([Event.send v], onSend, env2)
    | some Choice.quit :: env2 => some ([Event.recvQuit], onQuit, env2)
    | _ => none
  | Pending.close q => some ([Event.close], q, env)
  | Pending.finished => none

/-- At most `n` steps of a producer on its own, where a select may stay blocked. -/
def Producer.runOffer :
    Nat → Producer → List (Option Choice) → List Event × Producer × List (Option Choice)
  | 0, p, env => ([], p, env)
  | n + 1, p, env =>
    match p.stepOffer env with
    | none => ([], p, env)
    | some (es, q, env2) =>
      (es ++ (Producer.runOffer n q env2).1, (Producer.runOffer n q env2).2)

/-- Values a producer has yet to publish when it is never cancelled. -/
def Frame.out : Frame → List Int
  | Frame.call t => inorder t
  | Frame.select v r => v :: inorder r

/-- Values a producer has yet to publish when it is never cancelled. -/
def Producer.out : Producer → List Int
  | Producer.run k => (k.map Frame.out).flatten
  | Producer.done => []

/-- Control state of the goroutine running `Same`, with the number of completed
rounds of the `for` loop. -/
inductive Checker where
  /-- blocked at `v1, ok1 := <-w1` -/
  | recv1 (rounds : Nat) : Checker
  /-- blocked at `v2, ok2 := <-w2`, holding `v1, ok1` -/
  | recv2 (rounds : Nat) (v1 : Int) (ok1 : Bool) : Checker
  /-- the call of `Same` has returned `result` -/
  | returned (rounds : Nat) (result : Bool) : Checker
  deriving DecidableEq, Repr

/-- The rest of a loop iteration once `v2, ok2` has been received: the two `if`
statements of `Same`, then the next iteration. -/
def afterRecv2 (rounds : Nat) (v1 : Int) (ok1 : Bool) (v2 : Int) (ok2 : Bool) : Checker :=
  if !ok1 || !ok2 then Checker.returned (rounds + 1) (ok1 == ok2)
  else if v1 != v2 then Checker.returned (rounds + 1) false
  else Checker.recv1 (rounds + 1)

/-- State of one call of `Same`: the goroutines `Walk(t1, w1, quit)`, `Walk(t2, w2, quit)`,
the caller, and whether the cancellation signal has fired, that is whether a receive
from `quit` can proceed. Channel `w1` (`w2`) is closed exactly when `walk1` (`walk2`)
is `done`. -/
structure State where
  walk1 : Producer
  walk2 : Producer
  same : Checker
  quit : Bool
  deriving DecidableEq, Repr

/-- The two producers. -/
inductive Side where
  | one : Side
  | two : Side
  deriving DecidableEq, Repr

/-- The producer on a side. -/
def State.walker (s : State) : Side → Producer
  | Side.one => s.walk1
  | Side.two => s.walk2

/-- Replace the producer on a side. -/
def State.setWalker (s : State) : Side → Producer → State
  | Side.one, p => { s with walk1 := p }
  | Side.two, p => { s with walk2 := p }

/-- A scheduling decision. -/
inductive Move where
  /-- the producer takes an internal step or closes its channel -/
  | walk (i : Side) : Move
  /-- the producer's select takes `case ch <- t.Value`, the value is received by the
  pending receive of `Same` on that channel -/
  | send (i : Side) : Move
  /-- the producer's select takes `case <-quit` -/
  | quit (i : Side) : Move
  /-- the pending receive of `Same` completes on a closed channel with `(0, false)` -/
  | recvClosed : Move
  deriving DecidableEq, Repr

/-- One move of the system, `none` when the move is not enabled. `Same` has no
statement that sends on `quit` or closes it, so no move changes `quit`. -/
def step : Move → State → Option State
  | Move.walk i, s =>
    match (s.walker i).pending with
    | Pending.internal q => some (s.setWalker i q)
    | Pending.close q => some (s.setWalker i q)
    | _ => none
  | Move.send Side.one, s =>
    match s.walk1.pending, s.same with
    | Pending.select v onSend _, Checker.recv1 n =>
      some { s with walk1 := onSend, same := Checker.recv2 n v true }
    | _, _ => none
  | Move.send Side.two, s =>
    match s.walk2.pending, s.same with
    | Pending.select v onSend _, Checker.recv2 n v1 ok1 =>
      some { s with walk2 := onSend, same := afterRecv2 n v1 ok1 v true }
    | _, _ => none
  | Move.quit i, s =>
    match (s.walker i).pending, s.quit with
    | Pending.select _ _ onQuit, true => some (s.setWalker i onQuit)
    | _, _ => none
  | Move.recvClosed, s =>
    match s.same with
    | Checker.recv1 n =>
      if s.walk1 = Producer.done then some { s with same := Checker.recv2 n 0 false }
      else none
    | Checker.recv2 n v1 ok1 =>
      if s.walk2 = Producer.done then some { s with same := afterRecv2 n v1 ok1 0 false }
      else none
    | Checker.returned _ _ => none

/-- A schedule: the moves taken one after the other, `none` when one is not enabled. -/
def exec : List Move → State → Option State
  | [], s => some s
  | m :: ms, s => (step m s).bind (exec ms)

/-- State of `Same(t1, t2)` after `make` and the two `go` statements. -/
def init (t1 t2 : Tree) : State :=
  { walk1 := Producer.run [Frame.call t1]
    walk2 := Producer.run [Frame.call t2]
    same := Checker.recv1 0
    quit := false }

/-- Every move. -/
def allMoves : List Move :=
  [Move.walk Side.one, Move.walk Side.two, Move.send Side.one, Move.send Side.two,
   Move.quit Side.one, Move.quit Side.two, Move.recvClosed]

/-- The first enabled move, taken. -/
def firstStep (s : State) : Option State :=
  allMoves.findSome? (fun m => step m s)

/-- Run the first-enabled-move scheduler for at most `n` moves. -/
def runFor : Nat → State → State
  | 0, s => s
  | n + 1, s =>
    match firstStep s with
    | some s2 => runFor n s2
    | none => s

/-- Number of nodes. -/
def Tree.size : Tree → Nat
  | Tree.nil => 0
  | Tree.node l _ r => l.size + r.size + 1

/-- Bound on the moves a frame can still cause. -/
def Frame.weight : Frame → Nat
  | Frame.call t => 4 * t.size + 1
  | Frame.select _ r => 4 * r.size + 3

/-- Bound on the moves a producer can still cause. -/
def Producer.weight : Producer → Nat
  | Producer.run k => (k.map Frame.weight).sum + 1
  | Producer.done => 0

/-- Weight of the control state of `Same`. -/
def Checker.weight : Checker → Nat
  | Checker.recv1 _ => 2
  | Checker.recv2 _ _ _ => 1
  | Checker.returned _ _ => 0

/-- Bound on the length of any schedule from a state. -/
def State.weight (s : State) : Nat :=
  s.walk1.weight + s.walk2.weight + s.same.weight

/-- The value `Same(t1, t2)` returns under the first-enabled-move scheduler. -/
def Same (t1 t2 : Tree) : Option Bool :=
  match (runFor (init t1 t2).weight (init t1 t2)).same with
  | Checker.returned _ b => some b
  | _ => none

/-- The number of loop rounds `Same(t1, t2)` runs under the first-enabled-move scheduler. -/
def SameRounds (t1 t2 : Tree) : Option Nat :=
  match (runFor (init t1 t2).weight (init t1 t2)).same with
  | Checker.returned n _ => some n
  | _ => none

/-- What the control state of `Same` and the values still to be published by the two
producers say about the in-order sequences `a` and `b` of the two trees. -/
def InvCore (a b : List Int) : Checker → List Int → List Int → Prop
  | Checker.recv1 n, o1, o2 => ∃ pre : List Int, pre.length = n ∧ a = pre ++ o1 ∧ b = pre ++ o2
  | Checker.recv2 n v1 true, o1, o2 =>
    ∃ pre : List Int, pre.length = n ∧ a = pre ++ v1 :: o1 ∧ b = pre ++ o2
  | Checker.recv2 n _ false, o1, o2 =>
    ∃ pre : List Int, pre.length = n ∧ a = pre ∧ o1 = [] ∧ b = pre ++ o2
  | Checker.returned n res, o1, o2 =>
    res = decide (a = b) ∧ n = lcp a b + 1 ∧ o1 = a.drop n ∧ o2 = b.drop n

/-- Invariant of every schedule of `Same(t1, t2)`, `a` and `b` the in-order sequences:
the cancellation signal has not fired, and `InvCore` holds. -/
def Inv (a b : List Int) (s : State) : Prop :=
  s.quit = false ∧ InvCore a b s.same s.walk1.out s.walk2.out

/-- Has a producer exited. -/
def Producer.exited : Producer → Bool
  | Producer.done => true
  | Producer.run _ => false

/-- Has `Same` returned. -/
def Checker.hasReturned : Checker → Bool
  | Checker.returned _ _ => true
  | _ => false

end EquivalentBinaryTrees

namespace MyReader

/-- Go `func (r MyReader) Read(b []byte) (n int, err error)`: the loop
`for i := range b { b[i] = 'A' }` followed by `return len(b), nil`. The result is the
buffer after the call, `n`, and `err` (`none` is the nil error). -/
def Read (b : List Nat) : List Nat × Nat × Option String :=
  ((List.range b.length).foldl (fun buf i => buf.set i 65) b, b.length, none)

end MyReader

namespace EquivalentBinaryTrees

/-! ## Properties of `WalkImpl` / `Walk` -/

theorem nextChoice_of_no_quit (env : List Choice) (h : Choice.quit ∉ env) :
    (nextChoice env).1 = Choice.send ∧ Choice.quit ∉ (nextChoice env).2 := by
  cases env with
  | nil => simp [nextChoice]
  | cons c env =>
    cases c with
    | send => simp [nextChoice] at h ⊢; exact h
    | quit => simp at h

theorem WalkImpl_of_no_quit (t : Tree) :
    ∀ env : List Choice, Choice.quit ∉ env →
      (WalkImpl t env).1 = (inorder t).map Event.send ∧ Choice.quit ∉ (WalkImpl t env).2 := by
  induction t with
  | nil => intro env h; simp [WalkImpl, inorder, h]
  | node l v r ihl ihr =>
    intro env h
    obtain ⟨hl1, hl2⟩ := ihl env h
    obtain ⟨hc1, hc2⟩ := nextChoice_of_no_quit _ hl2
    obtain ⟨hr1, hr2⟩ := ihr _ hc2
    have hsplit : nextChoice (WalkImpl l env).2
        = (Choice.send, (nextChoice (WalkImpl l env).2).2) := by
      rw [← hc1]
    rw [WalkImpl, hsplit]
    simp only [inorder, List.map_append, List.map_cons]
    exact ⟨by rw [hl1, hr1], hr2⟩

theorem close_not_mem_WalkImpl (t : Tree) :
    ∀ env : List Choice, Event.close ∉ (WalkImpl t env).1 := by
  induction t with
  | nil => intro env; simp [WalkImpl]
  | node l v r ihl ihr =>
    intro env
    rw [WalkImpl]
    rcases hc : nextChoice (WalkImpl l env).2 with ⟨c, env2⟩
    cases c with
    | send =>
      simp only [List.mem_append, List.mem_cons, not_or]
      exact ⟨ihl env, by simp, ihr env2⟩
    | quit =>
      simp only [List.mem_append, List.mem_singleton, not_or]
      exact ⟨ihl env, by simp⟩

/-- When every select takes the send case, `Walk` as a function of the select outcomes
publishes exactly the in-order traversal and then closes. -/
theorem Walk_all_sends_taken (t : Tree) (env : List Choice) (h : Choice.quit ∉ env) :
    Walk t env = (inorder t).map Event.send ++ [Event.close] := by
  rw [Walk, (WalkImpl_of_no_quit t env h).1]

/-- C5 fails on the code: in the tree `((nil 1 nil) 2 nil)`, when the select of node 1
observes the cancellation signal and the select of its parent then accepts the send,
`Walk` performs `<-quit`, then still publishes 2, then closes: the `return` of the quit
case leaves only the innermost call, the parent node is visited and publishes. -/
theorem Walk_publishes_after_observed_quit :
    Walk (Tree.node (Tree.node Tree.nil 1 Tree.nil) 2 Tree.nil) [Choice.quit, Choice.send]
        = [Event.recvQuit, Event.send 2, Event.close]
      ∧ publishesAfterQuit
          (Walk (Tree.node (Tree.node Tree.nil 1 Tree.nil) 2 Tree.nil)
            [Choice.quit, Choice.send]) = true := by
  decide

/-- C6: on every exit path (any tree, nil included, any outcomes of the selects) `Walk`
closes its channel exactly once and the close is its last operation: the events are
some list without a close, followed by the single close. -/
theorem Walk_closes_once_last (t : Tree) (env : List Choice) :
    (∃ es, Walk t env = es ++ [Event.close] ∧ Event.close ∉ es)
      ∧ (Walk t env).count Event.close = 1
      ∧ (Walk t env).getLast? = some Event.close := by
  refine ⟨⟨(WalkImpl t env).1, rfl, close_not_mem_WalkImpl t env⟩, ?_, ?_⟩
  · rw [Walk, List.count_append, List.count_eq_zero_of_not_mem (close_not_mem_WalkImpl t env)]
    simp
  · simp [Walk]

end EquivalentBinaryTrees

namespace MyReader

theorem foldl_set_range (n : Nat) :
    ∀ b : List Nat, n ≤ b.length →
      (List.range n).foldl (fun buf i => buf.set i 65) b
        = List.replicate n 65 ++ b.drop n := by
  induction n with
  | zero => intro b _; simp
  | succ n ih =>
    intro b hn
    rw [List.range_succ, List.foldl_append, ih b (by omega)]
    simp only [List.foldl_cons, List.foldl_nil]
    have hlt : n < b.length := by omega
    have hd : b.drop n = b[n] :: b.drop (n + 1) := List.drop_eq_getElem_cons hlt
    rw [List.set_append_right _ _ (by simp), hd, List.replicate_succ']
    simp only [List.length_replicate, Nat.sub_self, List.set_cons_zero, List.append_assoc,
      List.singleton_append]

/-- C10: for every buffer (the empty one included) `Read` sets every byte to 'A' (65),
returns `n = len(b)` and the nil error; reading again from any buffer therefore gives
'A' bytes again and never an end-of-file error. -/
theorem Read_fills_with_A (b : List Nat) :
    (Read b).1 = List.replicate b.length 65
      ∧ (∀ x ∈ (Read b).1, x = 65)
      ∧ (Read b).1.length = b.length
      ∧ (Read b).2.1 = b.length
      ∧ (Read b).2.2 = none
      ∧ Read (Read b).1 = Read b := by
  have h1 : (Read b).1 = List.replicate b.length 65 := by
    simp [Read, foldl_set_range b.length b (le_refl _)]
  refine ⟨h1, ?_, ?_, rfl, rfl, ?_⟩
  · intro x hx
    rw [h1] at hx
    exact (List.mem_replicate.mp hx).2
  · rw [h1]; simp
  · have h2 : ∀ c : List Nat, Read c = (List.replicate c.length 65, c.length, none) := by
      intro c
      simp [Read, foldl_set_range c.length c (le_refl _)]
    rw [h2 (Read b).1, h1, h2 b]
    simp

end MyReader

namespace EquivalentBinaryTrees

/-! ## Longest common initial segment -/

theorem lcp_nil_left (ys : List Int) : lcp [] ys = 0 := by
  simp [lcp]

theorem lcp_nil_right (xs : List Int) : lcp xs [] = 0 := by
  cases xs <;> simp [lcp]

theorem lcp_cons_cons (x y : Int) (xs ys : List Int) :
    lcp (x :: xs) (y :: ys) = if x = y then lcp xs ys + 1 else 0 := by
  simp [lcp]

theorem lcp_append_left (pre xs ys : List Int) :
    lcp (pre ++ xs) (pre ++ ys) = pre.length + lcp xs ys := by
  induction pre with
  | nil => simp
  | cons p pre ih => simp [lcp_cons_cons, ih]; omega

theorem lcp_self (xs : List Int) : lcp xs xs = xs.length := by
  have h := lcp_append_left xs [] []
  simpa [lcp_nil_left] using h

theorem lcp_comm (xs : List Int) : ∀ ys : List Int, lcp xs ys = lcp ys xs := by
  induction xs with
  | nil => intro ys; rw [lcp_nil_left, lcp_nil_right]
  | cons x xs ih =>
    intro ys
    cases ys with
    | nil => rw [lcp_nil_left, lcp_nil_right]
    | cons y ys =>
      rw [lcp_cons_cons, lcp_cons_cons, ih ys]
      by_cases h : x = y
      · simp [h]
      · have h2 : ¬ y = x := fun e => h e.symm
        simp [h, h2]

theorem lcp_le_left (xs : List Int) : ∀ ys : List Int, lcp xs ys ≤ xs.length := by
  induction xs with
  | nil => intro ys; simp [lcp_nil_left]
  | cons x xs ih =>
    intro ys
    cases ys with
    | nil => simp [lcp_nil_right]
    | cons y ys =>
      rw [lcp_cons_cons]
      have := ih ys
      split <;> simp only [List.length_cons] <;> omega

theorem lcp_le_right (xs ys : List Int) : lcp xs ys ≤ ys.length := by
  rw [lcp_comm]; exact lcp_le_left ys xs

/-! ## Producers -/

theorem out_of_internal {p q : Producer} (h : p.pending = Pending.internal q) :
    q.out = p.out := by
  match p, h with
  | Producer.run (Frame.call Tree.nil :: k), h =>
    simp only [Producer.pending, Pending.internal.injEq] at h
    subst h
    simp [Producer.out, Frame.out, inorder]
  | Producer.run (Frame.call (Tree.node l v r) :: k), h =>
    simp only [Producer.pending, Pending.internal.injEq] at h
    subst h
    simp [Producer.out, Frame.out, inorder]
  | Producer.run (Frame.select v r :: k), h => simp [Producer.pending] at h
  | Producer.run [], h => simp [Producer.pending] at h
  | Producer.done, h => simp [Producer.pending] at h

theorem out_of_close {p q : Producer} (h : p.pending = Pending.close q) :
    p.out = [] ∧ q = Producer.done := by
  match p, h with
  | Producer.run (Frame.call Tree.nil :: k), h => simp [Producer.pending] at h
  | Producer.run (Frame.call (Tree.node l v r) :: k), h => simp [Producer.pending] at h
  | Producer.run (Frame.select v r :: k), h => simp [Producer.pending] at h
  | Producer.run [], h =>
    simp only [Producer.pending, Pending.close.injEq] at h
    exact ⟨by simp [Producer.out], h.symm⟩
  | Producer.done, h => simp [Producer.pending] at h

theorem out_of_select {p q1 q2 : Producer} {v : Int}
    (h : p.pending = Pending.select v q1 q2) : p.out = v :: q1.out := by
  match p, h with
  | Producer.run (Frame.call Tree.nil :: k), h => simp [Producer.pending] at h
  | Producer.run (Frame.call (Tree.node l v r) :: k), h => simp [Producer.pending] at h
  | Producer.run (Frame.select w r :: k), h =>
    simp only [Producer.pending, Pending.select.injEq] at h
    obtain ⟨hv, h1, _⟩ := h
    subst hv; subst h1
    simp [Producer.out, Frame.out]
  | Producer.run [], h => simp [Producer.pending] at h
  | Producer.done, h => simp [Producer.pending] at h

theorem done_of_finished {p : Producer} (h : p.pending = Pending.finished) :
    p = Producer.done := by
  match p, h with
  | Producer.run (Frame.call Tree.nil :: k), h => simp [Producer.pending] at h
  | Producer.run (Frame.call (Tree.node l v r) :: k), h => simp [Producer.pending] at h
  | Producer.run (Frame.select w r :: k), h => simp [Producer.pending] at h
  | Producer.run [], h => simp [Producer.pending] at h
  | Producer.done, _ => rfl

theorem weight_of_internal {p q : Producer} (h : p.pending = Pending.internal q) :
    q.weight < p.weight := by
  match p, h with
  | Producer.run (Frame.call Tree.nil :: k), h =>
    simp only [Producer.pending, Pending.internal.injEq] at h
    subst h
    simp [Producer.weight, Frame.weight, Tree.size]
  | Producer.run (Frame.call (Tree.node l v r) :: k), h =>
    simp only [Producer.pending, Pending.internal.injEq] at h
    subst h
    simp [Producer.weight, Frame.weight, Tree.size]
    omega
  | Producer.run (Frame.select v r :: k), h => simp [Producer.pending] at h
  | Producer.run [], h => simp [Producer.pending] at h
  | Producer.done, h => simp [Producer.pending] at h

theorem weight_of_close {p q : Producer} (h : p.pending = Pending.close q) :
    q.weight < p.weight := by
  match p, h with
  | Producer.run (Frame.call Tree.nil :: k), h => simp [Producer.pending] at h
  | Producer.run (Frame.call (Tree.node l v r) :: k), h => simp [Producer.pending] at h
  | Producer.run (Frame.select v r :: k), h => simp [Producer.pending] at h
  | Producer.run [], h =>
    simp only [Producer.pending, Pending.close.injEq] at h
    subst h
    simp [Producer.weight]
  | Producer.done, h => simp [Producer.pending] at h

theorem weight_of_select {p q1 q2 : Producer} {v : Int}
    (h : p.pending = Pending.select v q1 q2) :
    q1.weight + 2 ≤ p.weight ∧ q2.weight < p.weight := by
  match p, h with
  | Producer.run (Frame.call Tree.nil :: k), h => simp [Producer.pending] at h
  | Producer.run (Frame.call (Tree.node l v r) :: k), h => simp [Producer.pending] at h
  | Producer.run (Frame.select w r :: k), h =>
    simp only [Producer.pending, Pending.select.injEq] at h
    obtain ⟨_, h1, h2⟩ := h
    subst h1; subst h2
    simp [Producer.weight, Frame.weight]
    omega
  | Producer.run [], h => simp [Producer.pending] at h
  | Producer.done, h => simp [Producer.pending] at h

/-! ## The invariant -/

theorem core_send_one {a b o1 o2 : List Int} {n : Nat} {v : Int}
    (h : InvCore a b (Checker.recv1 n) (v :: o1) o2) :
    InvCore a b (Checker.recv2 n v true) o1 o2 := by
  simpa [InvCore] using h

theorem core_closed_one {a b o2 : List Int} {n : Nat}
    (h : InvCore a b (Checker.recv1 n) [] o2) :
    InvCore a b (Checker.recv2 n 0 false) [] o2 := by
  obtain ⟨pre, hn, ha, hb⟩ := h
  exact ⟨pre, hn, by simpa using ha, rfl, hb⟩

theorem core_send_two {a b o1 o2 : List Int} {n : Nat} {v1 v2 : Int} {ok1 : Bool}
    (h : InvCore a b (Checker.recv2 n v1 ok1) o1 (v2 :: o2)) :
    InvCore a b (afterRecv2 n v1 ok1 v2 true) o1 o2 := by
  cases ok1 with
  | false =>
    obtain ⟨pre, hn, ha, ho, hb⟩ := h
    subst ha; subst hb; subst ho; subst hn
    have hl : lcp a (a ++ v2 :: o2) = a.length := by
      have := lcp_append_left a [] (v2 :: o2)
      simpa [lcp_nil_left] using this
    simp [afterRecv2, InvCore, hl]
  | true =>
    obtain ⟨pre, hn, ha, hb⟩ := h
    subst ha; subst hb; subst hn
    by_cases hv : v1 = v2
    · subst hv
      simp only [afterRecv2, Bool.not_true, Bool.or_self, Bool.false_eq_true, if_false,
        bne_self_eq_false]
      exact ⟨pre ++ [v1], by simp, by simp, by simp⟩
    · have hl : lcp (pre ++ v1 :: o1) (pre ++ v2 :: o2) = pre.length := by
        rw [lcp_append_left, lcp_cons_cons, if_neg hv]; rfl
      simp [afterRecv2, InvCore, hl, hv]

theorem core_closed_two {a b o1 : List Int} {n : Nat} {v1 : Int} {ok1 : Bool}
    (h : InvCore a b (Checker.recv2 n v1 ok1) o1 []) :
    InvCore a b (afterRecv2 n v1 ok1 0 false) o1 [] := by
  cases ok1 with
  | false =>
    obtain ⟨pre, hn, ha, ho, hb⟩ := h
    simp only [List.append_nil] at hb
    subst ha; subst hb; subst ho; subst hn
    simp [afterRecv2, InvCore, lcp_self]
  | true =>
    obtain ⟨pre, hn, ha, hb⟩ := h
    simp only [List.append_nil] at hb
    subst ha; subst hb; subst hn
    have hl : lcp (b ++ v1 :: o1) b = b.length := by
      have := lcp_append_left b (v1 :: o1) []
      simpa [lcp_nil_right] using this
    simp [afterRecv2, InvCore, hl]

theorem step_preserves_Inv {a b : List Int} {m : Move} {s s2 : State}
    (h : step m s = some s2) (hI : Inv a b s) : Inv a b s2 := by
  obtain ⟨hq, hc⟩ := hI
  cases m with
  | walk i =>
    cases i with
    | one =>
      simp only [step, State.walker] at h
      split at h
      · next q hp =>
        simp only [Option.some.injEq] at h; subst h
        refine ⟨hq, ?_⟩
        simp only [State.setWalker]
        rw [out_of_internal hp]; exact hc
      · next q hp =>
        simp only [Option.some.injEq] at h; subst h
        refine ⟨hq, ?_⟩
        simp only [State.setWalker]
        obtain ⟨ho, hd⟩ := out_of_close hp
        rw [hd]; rw [ho] at hc; exact hc
      · simp at h
    | two =>
      simp only [step, State.walker] at h
      split at h
      · next q hp =>
        simp only [Option.some.injEq] at h; subst h
        refine ⟨hq, ?_⟩
        simp only [State.setWalker]
        rw [out_of_internal hp]; exact hc
      · next q hp =>
        simp only [Option.some.injEq] at h; subst h
        refine ⟨hq, ?_⟩
        simp only [State.setWalker]
        obtain ⟨ho, hd⟩ := out_of_close hp
        rw [hd]; rw [ho] at hc; exact hc
      · simp at h
  | send i =>
    cases i with
    | one =>
      simp only [step] at h
      split at h
      · next v onSend _ n hp hs =>
        simp only [Option.some.injEq] at h; subst h
        refine ⟨hq, ?_⟩
        rw [hs, out_of_select hp] at hc
        exact core_send_one hc
      · simp at h
    | two =>
      simp only [step] at h
      split at h
      · next v onSend _ n v1 ok1 hp hs =>
        simp only [Option.some.injEq] at h; subst h
        refine ⟨hq, ?_⟩
        rw [hs, out_of_select hp] at hc
        exact core_send_two hc
      · simp at h
  | quit i =>
    simp only [step] at h
    split at h
    · next hp hqt => rw [hq] at hqt; simp at hqt
    · simp at h
  | recvClosed =>
    simp only [step] at h
    split at h
    · next n hs =>
      split at h
      · next hd =>
        simp only [Option.some.injEq] at h; subst h
        refine ⟨hq, ?_⟩
        rw [hs, hd] at hc
        simp only [hd]
        exact core_closed_one hc
      · simp at h
    · next n v1 ok1 hs =>
      split at h
      · next hd =>
        simp only [Option.some.injEq] at h; subst h
        refine ⟨hq, ?_⟩
        rw [hs, hd] at hc
        simp only [hd]
        exact core_closed_two hc
      · simp at h
    · simp at h

theorem exec_preserves_Inv {a b : List Int} (ms : List Move) :
    ∀ s s2 : State, exec ms s = some s2 → Inv a b s → Inv a b s2 := by
  induction ms with
  | nil =>
    intro s s2 h hI
    simp only [exec, Option.some.injEq] at h
    subst h; exact hI
  | cons m ms ih =>
    intro s s2 h hI
    simp only [exec] at h
    cases hm : step m s with
    | none => rw [hm] at h; simp at h
    | some s1 =>
      rw [hm] at h
      exact ih s1 s2 h (step_preserves_Inv hm hI)

theorem Inv_init (t1 t2 : Tree) : Inv (inorder t1) (inorder t2) (init t1 t2) := by
  refine ⟨rfl, ?_⟩
  exact ⟨[], rfl, by simp [init, Producer.out, Frame.out], by simp [init, Producer.out, Frame.out]⟩

/-! ## Termination and progress -/

theorem afterRecv2_weight_le (n : Nat) (v1 : Int) (ok1 : Bool) (v2 : Int) (ok2 : Bool) :
    (afterRecv2 n v1 ok1 v2 ok2).weight ≤ 2 := by
  unfold afterRecv2
  split
  · simp [Checker.weight]
  · split <;> simp [Checker.weight]

theorem afterRecv2_closed_weight (n : Nat) (v1 : Int) (ok1 : Bool) :
    (afterRecv2 n v1 ok1 0 false).weight = 0 := by
  simp [afterRecv2, Checker.weight]

theorem step_weight_lt {m : Move} {s s2 : State} (h : step m s = some s2) :
    s2.weight < s.weight := by
  cases m with
  | walk i =>
    cases i with
    | one =>
      simp only [step, State.walker] at h
      split at h
      · next q hp =>
        simp only [Option.some.injEq] at h; subst h
        have := weight_of_internal hp
        simp only [State.weight, State.setWalker]; omega
      · next q hp =>
        simp only [Option.some.injEq] at h; subst h
        have := weight_of_close hp
        simp only [State.weight, State.setWalker]; omega
      · simp at h
    | two =>
      simp only [step, State.walker] at h
      split at h
      · next q hp =>
        simp only [Option.some.injEq] at h; subst h
        have := weight_of_internal hp
        simp only [State.weight, State.setWalker]; omega
      · next q hp =>
        simp only [Option.some.injEq] at h; subst h
        have := weight_of_close hp
        simp only [State.weight, State.setWalker]; omega
      · simp at h
  | send i =>
    cases i with
    | one =>
      simp only [step] at h
      split at h
      · next v onSend _ n hp hs =>
        simp only [Option.some.injEq] at h; subst h
        have := (weight_of_select hp).1
        simp only [State.weight, hs, Checker.weight]; omega
      · simp at h
    | two =>
      simp only [step] at h
      split at h
      · next v onSend _ n v1 ok1 hp hs =>
        simp only [Option.some.injEq] at h; subst h
        have := (weight_of_select hp).1
        have := afterRecv2_weight_le n v1 ok1 v true
        have hw : (Checker.recv2 n v1 ok1).weight = 1 := rfl
        simp only [State.weight, hs, hw]; omega
      · simp at h
  | quit i =>
    cases i with
    | one =>
      simp only [step, State.walker] at h
      split at h
      · next _ _ onQuit hp hqt =>
        simp only [Option.some.injEq] at h; subst h
        have := (weight_of_select hp).2
        simp only [State.weight, State.setWalker]; omega
      · simp at h
    | two =>
      simp only [step, State.walker] at h
      split at h
      · next _ _ onQuit hp hqt =>
        simp only [Option.some.injEq] at h; subst h
        have := (weight_of_select hp).2
        simp only [State.weight, State.setWalker]; omega
      · simp at h
  | recvClosed =>
    simp only [step] at h
    split at h
    · next n hs =>
      split at h
      · simp only [Option.some.injEq] at h; subst h
        simp only [State.weight, hs, Checker.weight]; omega
      · simp at h
    · next n v1 ok1 hs =>
      split at h
      · simp only [Option.some.injEq] at h; subst h
        have := afterRecv2_closed_weight n v1 ok1
        have hw : (Checker.recv2 n v1 ok1).weight = 1 := rfl
        simp only [State.weight, hs, hw]; omega
      · simp at h
    · simp at h

theorem exec_weight (ms : List Move) :
    ∀ s s2 : State, exec ms s = some s2 → ms.length + s2.weight ≤ s.weight := by
  induction ms with
  | nil =>
    intro s s2 h
    simp only [exec, Option.some.injEq] at h
    subst h; simp
  | cons m ms ih =>
    intro s s2 h
    simp only [exec] at h
    cases hm : step m s with
    | none => rw [hm] at h; simp at h
    | some s1 =>
      rw [hm] at h
      have h1 := ih s1 s2 h
      have h2 := step_weight_lt hm
      simp only [List.length_cons]; omega

theorem enabled_of_not_returned (s : State) (h : s.same.hasReturned = false) :
    ∃ m s2, m ∈ allMoves ∧ step m s = some s2 := by
  cases hs : s.same with
  | recv1 n =>
    cases hp : s.walk1.pending with
    | internal q =>
      exact ⟨Move.walk Side.one, s.setWalker Side.one q, by simp [allMoves],
        by simp [step, State.walker, hp]⟩
    | close q =>
      exact ⟨Move.walk Side.one, s.setWalker Side.one q, by simp [allMoves],
        by simp [step, State.walker, hp]⟩
    | select v q1 q2 =>
      exact ⟨Move.send Side.one, { s with walk1 := q1, same := Checker.recv2 n v true },
        by simp [allMoves], by simp [step, hp, hs]⟩
    | finished =>
      exact ⟨Move.recvClosed, { s with same := Checker.recv2 n 0 false },
        by simp [allMoves], by simp [step, hs, done_of_finished hp]⟩
  | recv2 n v1 ok1 =>
    cases hp : s.walk2.pending with
    | internal q =>
      exact ⟨Move.walk Side.two, s.setWalker Side.two q, by simp [allMoves],
        by simp [step, State.walker, hp]⟩
    | close q =>
      exact ⟨Move.walk Side.two, s.setWalker Side.two q, by simp [allMoves],
        by simp [step, State.walker, hp]⟩
    | select v q1 q2 =>
      exact ⟨Move.send Side.two, { s with walk2 := q1, same := afterRecv2 n v1 ok1 v true },
        by simp [allMoves], by simp [step, hp, hs]⟩
    | finished =>
      exact ⟨Move.recvClosed, { s with same := afterRecv2 n v1 ok1 0 false },
        by simp [allMoves], by simp [step, hs, done_of_finished hp]⟩
  | returned n res => rw [hs] at h; simp [Checker.hasReturned] at h

theorem firstStep_of_not_returned (s : State) (h : s.same.hasReturned = false) :
    ∃ s2, firstStep s = some s2 := by
  obtain ⟨m, s2, hm, hstep⟩ := enabled_of_not_returned s h
  cases hf : firstStep s with
  | some s3 => exact ⟨s3, rfl⟩
  | none =>
    have := (List.findSome?_eq_none_iff.mp hf) m hm
    rw [hstep] at this
    simp at this

theorem step_of_firstStep {s s2 : State} (h : firstStep s = some s2) :
    ∃ m, step m s = some s2 := by
  obtain ⟨m, _, hm⟩ := List.exists_of_findSome?_eq_some h
  exact ⟨m, hm⟩

theorem runFor_returns {a b : List Int} (n : Nat) :
    ∀ s : State, Inv a b s → s.weight ≤ n →
      Inv a b (runFor n s) ∧ (runFor n s).same.hasReturned = true := by
  induction n with
  | zero =>
    intro s hI hw
    refine ⟨hI, ?_⟩
    simp only [runFor]
    cases hs : s.same with
    | recv1 k => simp [State.weight, hs, Checker.weight] at hw
    | recv2 k v ok => simp [State.weight, hs, Checker.weight] at hw
    | returned k r => rfl
  | succ n ih =>
    intro s hI hw
    simp only [runFor]
    cases hf : firstStep s with
    | none =>
      refine ⟨hI, ?_⟩
      cases hr : s.same.hasReturned with
      | true => rfl
      | false =>
        obtain ⟨s2, h2⟩ := firstStep_of_not_returned s hr
        rw [hf] at h2; simp at h2
    | some s2 =>
      obtain ⟨m, hm⟩ := step_of_firstStep hf
      have hlt := step_weight_lt hm
      exact ih s2 (step_preserves_Inv hm hI) (by omega)

theorem runFor_exec (n : Nat) : ∀ s : State, ∃ ms, exec ms s = some (runFor n s) := by
  induction n with
  | zero => intro s; exact ⟨[], rfl⟩
  | succ n ih =>
    intro s
    simp only [runFor]
    cases hf : firstStep s with
    | none => exact ⟨[], rfl⟩
    | some s2 =>
      obtain ⟨m, hm⟩ := step_of_firstStep hf
      obtain ⟨ms, hms⟩ := ih s2
      exact ⟨m :: ms, by simp [exec, hm, hms]⟩

theorem returned_of_Inv {a b : List Int} {s : State} {n : Nat} {res : Bool}
    (hI : Inv a b s) (hs : s.same = Checker.returned n res) :
    res = decide (a = b) ∧ n = lcp a b + 1 := by
  obtain ⟨_, hc⟩ := hI
  rw [hs] at hc
  exact ⟨hc.1, hc.2.1⟩

theorem run_result (t1 t2 : Tree) :
    (runFor (init t1 t2).weight (init t1 t2)).same
      = Checker.returned (lcp (inorder t1) (inorder t2) + 1)
          (decide (inorder t1 = inorder t2)) := by
  obtain ⟨hI, hr⟩ := runFor_returns (init t1 t2).weight (init t1 t2) (Inv_init t1 t2) (le_refl _)
  cases hs : (runFor (init t1 t2).weight (init t1 t2)).same with
  | recv1 k => rw [hs] at hr; simp [Checker.hasReturned] at hr
  | recv2 k v ok => rw [hs] at hr; simp [Checker.hasReturned] at hr
  | returned k r =>
    obtain ⟨h1, h2⟩ := returned_of_Inv hI hs
    rw [h1, h2]

theorem Same_eq (t1 t2 : Tree) : Same t1 t2 = some (decide (inorder t1 = inorder t2)) := by
  simp [Same, run_result]

theorem SameRounds_eq (t1 t2 : Tree) :
    SameRounds t1 t2 = some (lcp (inorder t1) (inorder t2) + 1) := by
  simp [SameRounds, run_result]

/-! ## The producer control states run `WalkImpl` -/

theorem runEnv_of_none {p : Producer} {env : List Choice} (h : p.stepEnv env = none) (m : Nat) :
    Producer.runEnv m p env = ([], p, env) := by
  cases m with
  | zero => rfl
  | succ m => simp [Producer.runEnv, h]

theorem runEnv_one {p q : Producer} {env env2 : List Choice} {es : List Event}
    (h : p.stepEnv env = some (es, q, env2)) : Producer.runEnv 1 p env = (es, q, env2) := by
  simp [Producer.runEnv, h]

theorem runEnv_trans (n m : Nat) :
    ∀ (p q r : Producer) (env env2 env3 : List Choice) (es es2 : List Event),
      Producer.runEnv n p env = (es, q, env2) → Producer.runEnv m q env2 = (es2, r, env3) →
      Producer.runEnv (n + m) p env = (es ++ es2, r, env3) := by
  induction n with
  | zero =>
    intro p q r env env2 env3 es es2 h1 h2
    simp only [Producer.runEnv, Prod.mk.injEq] at h1
    obtain ⟨h11, h12, h13⟩ := h1
    subst h11; subst h12; subst h13
    simpa using h2
  | succ n ih =>
    intro p q r env env2 env3 es es2 h1 h2
    have hnm : n + 1 + m = (n + m) + 1 := by omega
    rw [hnm]
    cases hstep : p.stepEnv env with
    | none =>
      rw [runEnv_of_none hstep] at h1 ⊢
      simp only [Prod.mk.injEq] at h1
      obtain ⟨h11, h12, h13⟩ := h1
      subst h11; subst h12; subst h13
      rw [runEnv_of_none hstep] at h2
      simpa using h2
    | some x =>
      obtain ⟨e, q0, env0⟩ := x
      simp only [Producer.runEnv, hstep] at h1 ⊢
      have hr : Producer.runEnv n q0 env0 = ((Producer.runEnv n q0 env0).1, q, env2) := by
        have h3 := congrArg Prod.snd h1
        simp only at h3
        rw [← h3]
      have h4 := ih q0 q r env0 env2 env3 _ es2 hr h2
      have h5 : es = e ++ (Producer.runEnv n q0 env0).1 := (congrArg Prod.fst h1).symm
      rw [h4, h5]
      simp

theorem runEnv_call (t : Tree) :
    ∀ (k : List Frame) (env : List Choice),
      ∃ n, Producer.runEnv n (Producer.run (Frame.call t :: k)) env
        = ((WalkImpl t env).1, Producer.run k, (WalkImpl t env).2) := by
  induction t with
  | nil =>
    intro k env
    exact ⟨1, by simp [Producer.runEnv, Producer.stepEnv, Producer.pending, WalkImpl]⟩
  | node l v r ihl ihr =>
    intro k env
    have h0 : Producer.runEnv 1 (Producer.run (Frame.call (Tree.node l v r) :: k)) env
        = ([], Producer.run (Frame.call l :: Frame.select v r :: k), env) :=
      runEnv_one (by simp [Producer.stepEnv, Producer.pending])
    obtain ⟨n1, h1⟩ := ihl (Frame.select v r :: k) env
    have h01 := runEnv_trans 1 n1 _ _ _ _ _ _ _ _ h0 h1
    rcases hc : nextChoice (WalkImpl l env).2 with ⟨c, env2⟩
    cases c with
    | send =>
      have h2 : Producer.runEnv 1 (Producer.run (Frame.select v r :: k)) (WalkImpl l env).2
          = ([Event.send v], Producer.run (Frame.call r :: k), env2) :=
        runEnv_one (by simp [Producer.stepEnv, Producer.pending, hc])
      obtain ⟨n3, h3⟩ := ihr k env2
      have h012 := runEnv_trans (1 + n1) 1 _ _ _ _ _ _ _ _ h01 h2
      have h0123 := runEnv_trans (1 + n1 + 1) n3 _ _ _ _ _ _ _ _ h012 h3
      refine ⟨1 + n1 + 1 + n3, ?_⟩
      rw [h0123, WalkImpl, hc]
      simp
    | quit =>
      have h2 : Producer.runEnv 1 (Producer.run (Frame.select v r :: k)) (WalkImpl l env).2
          = ([Event.recvQuit], Producer.run k, env2) :=
        runEnv_one (by simp [Producer.stepEnv, Producer.pending, hc])
      have h012 := runEnv_trans (1 + n1) 1 _ _ _ _ _ _ _ _ h01 h2
      refine ⟨1 + n1 + 1, ?_⟩
      rw [h012, WalkImpl, hc]
      simp

/-- The control-state producer started on `t`, its selects resolved by `env`, performs
exactly the events of `Walk t env` and then has exited. -/
theorem runEnv_Walk (t : Tree) (env : List Choice) :
    ∃ n, Producer.runEnv n (Producer.run [Frame.call t]) env
      = (Walk t env, Producer.done, (WalkImpl t env).2) := by
  obtain ⟨n, h⟩ := runEnv_call t [] env
  have h2 : Producer.runEnv 1 (Producer.run []) (WalkImpl t env).2
      = ([Event.close], Producer.done, (WalkImpl t env).2) :=
    runEnv_one (by simp [Producer.stepEnv, Producer.pending])
  exact ⟨n + 1, by rw [runEnv_trans n 1 _ _ _ _ _ _ _ _ h h2, Walk]⟩

/-! ## Producers that can never exit -/

theorem walk1_out_ne_nil {a b : List Int} {s : State} (hI : Inv a b s)
    (hlen : lcp a b + 1 < a.length) : s.walk1.out ≠ [] := by
  obtain ⟨_, hc⟩ := hI
  intro ho
  rw [ho] at hc
  cases hs : s.same with
  | recv1 n =>
    rw [hs] at hc
    obtain ⟨pre, _, ha, hb⟩ := hc
    have h1 := lcp_append_left pre [] s.walk2.out
    rw [← ha, ← hb, lcp_nil_left] at h1
    have h2 : a.length = pre.length := by rw [ha]; simp
    omega
  | recv2 n v1 ok1 =>
    rw [hs] at hc
    cases ok1 with
    | true =>
      obtain ⟨pre, _, ha, hb⟩ := hc
      have h1 := lcp_append_left pre [v1] s.walk2.out
      rw [← ha, ← hb] at h1
      have h2 : a.length = pre.length + 1 := by rw [ha]; simp
      omega
    | false =>
      obtain ⟨pre, _, ha, _, hb⟩ := hc
      have h1 := lcp_append_left pre [] s.walk2.out
      rw [List.append_nil, ← hb, ← ha, lcp_nil_left] at h1
      omega
  | returned n res =>
    rw [hs] at hc
    obtain ⟨_, hn, h1, _⟩ := hc
    have h2 := congrArg List.length h1
    simp only [List.length_nil, List.length_drop] at h2
    omega

theorem walk2_out_ne_nil {a b : List Int} {s : State} (hI : Inv a b s)
    (hlen : lcp a b + 1 < b.length) : s.walk2.out ≠ [] := by
  obtain ⟨_, hc⟩ := hI
  intro ho
  rw [ho] at hc
  cases hs : s.same with
  | recv1 n =>
    rw [hs] at hc
    obtain ⟨pre, _, ha, hb⟩ := hc
    have h1 := lcp_append_left pre s.walk1.out []
    rw [← ha, ← hb, lcp_nil_right] at h1
    have h2 : b.length = pre.length := by rw [hb]; simp
    omega
  | recv2 n v1 ok1 =>
    rw [hs] at hc
    cases ok1 with
    | true =>
      obtain ⟨pre, _, ha, hb⟩ := hc
      have h1 := lcp_append_left pre (v1 :: s.walk1.out) []
      rw [← ha, ← hb, lcp_nil_right] at h1
      have h2 : b.length = pre.length := by rw [hb]; simp
      omega
    | false =>
      obtain ⟨pre, _, ha, _, hb⟩ := hc
      rw [List.append_nil] at hb
      have h1 : lcp a b = b.length := by rw [ha, hb]; exact lcp_self pre
      omega
  | returned n res =>
    rw [hs] at hc
    obtain ⟨_, hn, _, h1⟩ := hc
    have h2 := congrArg List.length h1
    simp only [List.length_nil, List.length_drop] at h2
    omega

theorem not_exited_of_out_ne_nil {p : Producer} (h : p.out ≠ []) : p.exited = false := by
  cases p with
  | run k => rfl
  | done => simp [Producer.out] at h

/-- In every schedule of `Same(t1, t2)`: a producer whose in-order sequence goes on
beyond the position at which `Same` decides never exits. -/
theorem producer_never_exits (t1 t2 : Tree) (ms : List Move) (s : State)
    (h : exec ms (init t1 t2) = some s) :
    (lcp (inorder t1) (inorder t2) + 1 < (inorder t1).length → s.walk1.exited = false)
      ∧ (lcp (inorder t1) (inorder t2) + 1 < (inorder t2).length → s.walk2.exited = false) := by
  have hI := exec_preserves_Inv ms _ _ h (Inv_init t1 t2)
  exact ⟨fun h1 => not_exited_of_out_ne_nil (walk1_out_ne_nil hI h1),
    fun h2 => not_exited_of_out_ne_nil (walk2_out_ne_nil hI h2)⟩

/-- In every schedule of `Same(t1, t2)` the cancellation signal has not fired. -/
theorem quit_never_fires (t1 t2 : Tree) (ms : List Move) (s : State)
    (h : exec ms (init t1 t2) = some s) : s.quit = false :=
  (exec_preserves_Inv ms _ _ h (Inv_init t1 t2)).1

/-! ## `Same` -/

/-- The scenarios of the reference program and of the specification: equal and different
one-node trees, nil trees, and two shapes with the in-order sequence 1, 2, 3. -/
theorem Same_examples :
    Same (Tree.node Tree.nil 1 Tree.nil) (Tree.node Tree.nil 1 Tree.nil) = some true
      ∧ Same (Tree.node Tree.nil 1 Tree.nil) (Tree.node Tree.nil 2 Tree.nil) = some false
      ∧ Same Tree.nil Tree.nil = some true
      ∧ Same Tree.nil (Tree.node Tree.nil 1 Tree.nil) = some false
      ∧ Same (Tree.node (Tree.node (Tree.node Tree.nil 1 Tree.nil) 2 Tree.nil) 3 Tree.nil)
          (Tree.node (Tree.node Tree.nil 1 Tree.nil) 2 (Tree.node Tree.nil 3 Tree.nil))
        = some true := by
  decide

/-- C1: `Same(t1, t2)` returns, and returns true exactly when the in-order value
sequences of the two trees are equal (whatever the shapes, nil included) and false
exactly when they differ; under every schedule of the goroutines the value returned is
the same. -/
theorem Same_iff_inorder_eq (t1 t2 : Tree) :
    (Same t1 t2 = some true ↔ inorder t1 = inorder t2)
      ∧ (Same t1 t2 = some false ↔ inorder t1 ≠ inorder t2)
      ∧ (∀ (ms : List Move) (s : State) (n : Nat) (res : Bool),
          exec ms (init t1 t2) = some s → s.same = Checker.returned n res →
          (res = true ↔ inorder t1 = inorder t2)) := by
  refine ⟨?_, ?_, ?_⟩
  · rw [Same_eq]; simp
  · rw [Same_eq]; simp
  · intro ms s n res h hs
    have hI := exec_preserves_Inv ms _ _ h (Inv_init t1 t2)
    rw [(returned_of_Inv hI hs).1]
    simp

/-- C3 fails on the code: `Same` of the one-node trees 1 and 2 returns false on the value
mismatch of the first round while neither stream is exhausted (both producers are still
running, neither channel is closed), and the cancellation signal has not fired then,
nor does it in any schedule: `Same` has no statement that fires it. -/
theorem Same_mismatch_does_not_fire_quit :
    Same (Tree.node Tree.nil 1 Tree.nil) (Tree.node Tree.nil 2 Tree.nil) = some false
      ∧ exec [Move.walk Side.one, Move.walk Side.one, Move.walk Side.two, Move.walk Side.two,
            Move.send Side.one, Move.send Side.two]
          (init (Tree.node Tree.nil 1 Tree.nil) (Tree.node Tree.nil 2 Tree.nil))
        = some { walk1 := Producer.run [Frame.call Tree.nil]
                 walk2 := Producer.run [Frame.call Tree.nil]
                 same := Checker.returned 1 false
                 quit := false }
      ∧ (∀ (ms : List Move) (s : State),
          exec ms (init (Tree.node Tree.nil 1 Tree.nil) (Tree.node Tree.nil 2 Tree.nil)) = some s →
          s.quit = false) := by
  refine ⟨by decide, by decide, ?_⟩
  intro ms s h
  exact quit_never_fires _ _ ms s h

/-- C4 fails on the code: for the trees `(nil 1 (nil 2 nil))` and `(nil 2 (nil 4 nil))`
`Same` returns false after the first round; afterwards each producer is blocked in the
select of its second node, no move of the system is enabled any more, and in no
schedule does either producer ever exit. -/
theorem Same_leaks_producers :
    exec [Move.walk Side.one, Move.walk Side.one, Move.walk Side.two, Move.walk Side.two,
          Move.send Side.one, Move.send Side.two,
          Move.walk Side.one, Move.walk Side.one, Move.walk Side.two, Move.walk Side.two]
        (init (Tree.node Tree.nil 1 (Tree.node Tree.nil 2 Tree.nil))
          (Tree.node Tree.nil 2 (Tree.node Tree.nil 4 Tree.nil)))
      = some { walk1 := Producer.run [Frame.select 2 Tree.nil]
               walk2 := Producer.run [Frame.select 4 Tree.nil]
               same := Checker.returned 1 false
               quit := false }
      ∧ (∀ m : Move,
          step m { walk1 := Producer.run [Frame.select 2 Tree.nil]
                   walk2 := Producer.run [Frame.select 4 Tree.nil]
                   same := Checker.returned 1 false
                   quit := false } = none)
      ∧ (∀ (ms : List Move) (s : State),
          exec ms (init (Tree.node Tree.nil 1 (Tree.node Tree.nil 2 Tree.nil))
            (Tree.node Tree.nil 2 (Tree.node Tree.nil 4 Tree.nil))) = some s →
          s.walk1.exited = false ∧ s.walk2.exited = false) := by
  refine ⟨by decide, ?_, ?_⟩
  · intro m
    cases m with
    | walk i => cases i <;> rfl
    | send i => cases i <;> rfl
    | quit i => cases i <;> rfl
    | recvClosed => rfl
  · intro ms s h
    obtain ⟨h1, h2⟩ := producer_never_exits _ _ ms s h
    exact ⟨h1 (by decide), h2 (by decide)⟩

/-- C7: `Same(t1, t2)` and `Same(t2, t1)` both return, and return the same value, under
the first-enabled-move scheduler and under every pair of schedules, although `Same`
always receives from the first tree's stream first. -/
theorem Same_symmetric (t1 t2 : Tree) :
    (∃ b : Bool, Same t1 t2 = some b ∧ Same t2 t1 = some b)
      ∧ Same t1 t2 = Same t2 t1
      ∧ (∃ (ms ms2 : List Move) (s s2 : State) (n n2 : Nat) (b : Bool),
          exec ms (init t1 t2) = some s ∧ s.same = Checker.returned n b
            ∧ exec ms2 (init t2 t1) = some s2 ∧ s2.same = Checker.returned n2 b)
      ∧ (∀ (ms ms2 : List Move) (s s2 : State) (n n2 : Nat) (res res2 : Bool),
          exec ms (init t1 t2) = some s → s.same = Checker.returned n res →
          exec ms2 (init t2 t1) = some s2 → s2.same = Checker.returned n2 res2 →
          res = res2) := by
  have hd : decide (inorder t1 = inorder t2) = decide (inorder t2 = inorder t1) := by
    by_cases h : inorder t1 = inorder t2
    · simp [h]
    · have h2 : ¬ inorder t2 = inorder t1 := fun e => h e.symm
      simp [h, h2]
  refine ⟨⟨decide (inorder t1 = inorder t2), Same_eq t1 t2, by rw [Same_eq, hd]⟩,
    by rw [Same_eq, Same_eq, hd], ?_, ?_⟩
  · obtain ⟨ms, hms⟩ := runFor_exec (init t1 t2).weight (init t1 t2)
    obtain ⟨ms2, hms2⟩ := runFor_exec (init t2 t1).weight (init t2 t1)
    refine ⟨ms, ms2, _, _, lcp (inorder t1) (inorder t2) + 1, lcp (inorder t2) (inorder t1) + 1,
      decide (inorder t1 = inorder t2), hms, run_result t1 t2, hms2, ?_⟩
    rw [run_result t2 t1, hd]
  · intro ms ms2 s s2 n n2 res res2 h hs h2 hs2
    have hI := exec_preserves_Inv ms _ _ h (Inv_init t1 t2)
    have hI2 := exec_preserves_Inv ms2 _ _ h2 (Inv_init t2 t1)
    rw [(returned_of_Inv hI hs).1, (returned_of_Inv hI2 hs2).1, hd]

/-- C8: `Same(t, t)` returns true for every tree, the nil tree included, under every
schedule. -/
theorem Same_reflexive (t : Tree) :
    Same t t = some true
      ∧ Same Tree.nil Tree.nil = some true
      ∧ (∀ (ms : List Move) (s : State) (n : Nat) (res : Bool),
          exec ms (init t t) = some s → s.same = Checker.returned n res → res = true) := by
  refine ⟨by rw [Same_eq]; simp, by decide, ?_⟩
  intro ms s n res h hs
  have hI := exec_preserves_Inv ms _ _ h (Inv_init t t)
  rw [(returned_of_Inv hI hs).1]
  simp

/-- C9: `Same` terminates: it returns under the first-enabled-move scheduler, no
schedule is longer than the weight of the initial state, and every state in which
`Same` has not returned has an enabled move. It returns after exactly
`lcp a b + 1` rounds, `a` and `b` the in-order sequences, under every schedule, which
is at most `min (len a) (len b) + 1`. -/
theorem Same_rounds (t1 t2 : Tree) :
    SameRounds t1 t2 = some (lcp (inorder t1) (inorder t2) + 1)
      ∧ (∀ (ms : List Move) (s : State),
          exec ms (init t1 t2) = some s → ms.length ≤ (init t1 t2).weight)
      ∧ (∀ (ms : List Move) (s : State),
          exec ms (init t1 t2) = some s → s.same.hasReturned = false →
          ∃ m s2, step m s = some s2)
      ∧ (∀ (ms : List Move) (s : State) (n : Nat) (res : Bool),
          exec ms (init t1 t2) = some s → s.same = Checker.returned n res →
          n = lcp (inorder t1) (inorder t2) + 1)
      ∧ lcp (inorder t1) (inorder t2) + 1
          ≤ min (inorder t1).length (inorder t2).length + 1 := by
  refine ⟨SameRounds_eq t1 t2, ?_, ?_, ?_, ?_⟩
  · intro ms s h
    have := exec_weight ms _ _ h
    omega
  · intro ms s _ hr
    obtain ⟨m, s2, _, hm⟩ := enabled_of_not_returned s hr
    exact ⟨m, s2, hm⟩
  · intro ms s n res h hs
    have hI := exec_preserves_Inv ms _ _ h (Inv_init t1 t2)
    exact (returned_of_Inv hI hs).2
  · have h1 := lcp_le_left (inorder t1) (inorder t2)
    have h2 := lcp_le_right (inorder t1) (inorder t2)
    simp only [Nat.add_le_add_iff_right, le_min_iff]
    exact ⟨h1, h2⟩

/-! ## `Walk` on its own, with selects that may stay blocked -/

theorem runOffer_of_none {p : Producer} {env : List (Option Choice)}
    (h : p.stepOffer env = none) (m : Nat) : Producer.runOffer m p env = ([], p, env) := by
  cases m with
  | zero => rfl
  | succ m => simp [Producer.runOffer, h]

theorem runOffer_one {p q : Producer} {env env2 : List (Option Choice)} {es : List Event}
    (h : p.stepOffer env = some (es, q, env2)) :
    Producer.runOffer 1 p env = (es, q, env2) := by
  simp [Producer.runOffer, h]

theorem runOffer_trans (n m : Nat) :
    ∀ (p q r : Producer) (env env2 env3 : List (Option Choice)) (es es2 : List Event),
      Producer.runOffer n p env = (es, q, env2) →
      Producer.runOffer m q env2 = (es2, r, env3) →
      Producer.runOffer (n + m) p env = (es ++ es2, r, env3) := by
  induction n with
  | zero =>
    intro p q r env env2 env3 es es2 h1 h2
    simp only [Producer.runOffer, Prod.mk.injEq] at h1
    obtain ⟨h11, h12, h13⟩ := h1
    subst h11; subst h12; subst h13
    simpa using h2
  | succ n ih =>
    intro p q r env env2 env3 es es2 h1 h2
    have hnm : n + 1 + m = (n + m) + 1 := by omega
    rw [hnm]
    cases hstep : p.stepOffer env with
    | none =>
      rw [runOffer_of_none hstep] at h1 ⊢
      simp only [Prod.mk.injEq] at h1
      obtain ⟨h11, h12, h13⟩ := h1
      subst h11; subst h12; subst h13
      rw [runOffer_of_none hstep] at h2
      simpa using h2
    | some x =>
      obtain ⟨e, q0, env0⟩ := x
      simp only [Producer.runOffer, hstep] at h1 ⊢
      have hr : Producer.runOffer n q0 env0 = ((Producer.runOffer n q0 env0).1, q, env2) := by
        have h3 := congrArg Prod.snd h1
        simp only at h3
        rw [← h3]
      have h4 := ih q0 q r env0 env2 env3 _ es2 hr h2
      have h5 : es = e ++ (Producer.runOffer n q0 env0).1 := (congrArg Prod.fst h1).symm
      rw [h4, h5]
      simp

theorem runOffer_done (m : Nat) (env : List (Option Choice)) :
    Producer.runOffer m Producer.done env = ([], Producer.done, env) :=
  runOffer_of_none (by simp [Producer.stepOffer, Producer.pending]) m

theorem runOffer_call (t : Tree) :
    ∀ (k : List Frame) (rest : List (Option Choice)),
      ∃ n, Producer.runOffer n (Producer.run (Frame.call t :: k))
          (List.replicate t.size (some Choice.send) ++ rest)
        = ((inorder t).map Event.send, Producer.run k, rest) := by
  induction t with
  | nil =>
    intro k rest
    exact ⟨1, by simp [Producer.runOffer, Producer.stepOffer, Producer.pending, inorder,
      Tree.size]⟩
  | node l v r ihl ihr =>
    intro k rest
    have henv : List.replicate (Tree.node l v r).size (some Choice.send) ++ rest
        = List.replicate l.size (some Choice.send)
            ++ (some Choice.send :: (List.replicate r.size (some Choice.send) ++ rest)) := by
      have hs : (Tree.node l v r).size = l.size + (r.size + 1) := by
        simp only [Tree.size]; omega
      rw [hs, List.replicate_add, List.replicate_succ]
      simp
    rw [henv]
    have h0 : Producer.runOffer 1 (Producer.run (Frame.call (Tree.node l v r) :: k))
          (List.replicate l.size (some Choice.send)
            ++ (some Choice.send :: (List.replicate r.size (some Choice.send) ++ rest)))
        = ([], Producer.run (Frame.call l :: Frame.select v r :: k),
            List.replicate l.size (some Choice.send)
              ++ (some Choice.send :: (List.replicate r.size (some Choice.send) ++ rest))) :=
      runOffer_one (by simp [Producer.stepOffer, Producer.pending])
    obtain ⟨n1, h1⟩ := ihl (Frame.select v r :: k)
      (some Choice.send :: (List.replicate r.size (some Choice.send) ++ rest))
    have h01 := runOffer_trans 1 n1 _ _ _ _ _ _ _ _ h0 h1
    have h2 : Producer.runOffer 1 (Producer.run (Frame.select v r :: k))
          (some Choice.send :: (List.replicate r.size (some Choice.send) ++ rest))
        = ([Event.send v], Producer.run (Frame.call r :: k),
            List.replicate r.size (some Choice.send) ++ rest) :=
      runOffer_one (by simp [Producer.stepOffer, Producer.pending])
    obtain ⟨n3, h3⟩ := ihr k rest
    have h012 := runOffer_trans (1 + n1) 1 _ _ _ _ _ _ _ _ h01 h2
    have h0123 := runOffer_trans (1 + n1 + 1) n3 _ _ _ _ _ _ _ _ h012 h3
    refine ⟨1 + n1 + 1 + n3, ?_⟩
    rw [h0123]
    simp [inorder]

/-- C2 as amended: when the cancellation signal never fires and every value `Walk`
offers on `ch` is accepted by a receiver (the select of each of the `t.size` nodes finds
a receiver), `Walk(t, ch, quit)` publishes exactly the in-order traversal of `t`, each
value once and in order, then closes `ch` and has exited, for every large enough number
of steps; for the nil tree it publishes nothing and closes, whatever the environment. -/
theorem Walk_publishes_inorder_when_received (t : Tree) (rest : List (Option Choice)) :
    (∃ n, ∀ m, n ≤ m →
        Producer.runOffer m (Producer.run [Frame.call t])
            (List.replicate t.size (some Choice.send) ++ rest)
          = ((inorder t).map Event.send ++ [Event.close], Producer.done, rest))
      ∧ (∃ n, ∀ m, n ≤ m →
        Producer.runOffer m (Producer.run [Frame.call Tree.nil]) rest
          = ([Event.close], Producer.done, rest)) := by
  have key : ∀ (u : Tree), ∃ n, ∀ m, n ≤ m →
      Producer.runOffer m (Producer.run [Frame.call u])
          (List.replicate u.size (some Choice.send) ++ rest)
        = ((inorder u).map Event.send ++ [Event.close], Producer.done, rest) := by
    intro u
    obtain ⟨n, h⟩ := runOffer_call u [] rest
    have h2 : Producer.runOffer 1 (Producer.run []) rest
        = ([Event.close], Producer.done, rest) :=
      runOffer_one (by simp [Producer.stepOffer, Producer.pending])
    have h3 := runOffer_trans n 1 _ _ _ _ _ _ _ _ h h2
    refine ⟨n + 1, ?_⟩
    intro m hm
    obtain ⟨d, hd⟩ := Nat.exists_eq_add_of_le hm
    rw [hd, runOffer_trans (n + 1) d _ _ _ _ _ _ _ _ h3 (runOffer_done d rest)]
    simp
  refine ⟨key t, ?_⟩
  have h := key Tree.nil
  simpa [Tree.size, inorder] using h

/-- C2 as stated fails on the code: `Walk` of the tree `(nil 1 (nil 2 nil))` whose first
value is received and whose second value finds no receiver, the cancellation signal
never firing, publishes 1 only and stays blocked in the select of node 2: it never
publishes the whole traversal and never closes. This is the first producer of
`Same((nil 1 (nil 2 nil)), (nil 2 (nil 4 nil)))`, in which the signal fires in no
schedule and that producer never exits. -/
theorem Walk_blocks_without_receiver :
    some Choice.quit ∉ [some Choice.send]
      ∧ Producer.runOffer 5
            (Producer.run [Frame.call (Tree.node Tree.nil 1 (Tree.node Tree.nil 2 Tree.nil))])
            [some Choice.send]
          = ([Event.send 1], Producer.run [Frame.select 2 Tree.nil], [])
      ∧ Producer.stepOffer (Producer.run [Frame.select 2 Tree.nil]) [] = none
      ∧ (∀ n,
          (Producer.runOffer n
              (Producer.run [Frame.call (Tree.node Tree.nil 1 (Tree.node Tree.nil 2 Tree.nil))])
              [some Choice.send]).1
            ≠ (inorder (Tree.node Tree.nil 1 (Tree.node Tree.nil 2 Tree.nil))).map Event.send
                ++ [Event.close]
          ∧ Event.close ∉ (Producer.runOffer n
              (Producer.run [Frame.call (Tree.node Tree.nil 1 (Tree.node Tree.nil 2 Tree.nil))])
              [some Choice.send]).1)
      ∧ (∀ (ms : List Move) (s : State),
          exec ms (init (Tree.node Tree.nil 1 (Tree.node Tree.nil 2 Tree.nil))
            (Tree.node Tree.nil 2 (Tree.node Tree.nil 4 Tree.nil))) = some s →
          s.quit = false ∧ s.walk1.exited = false) := by
  have h5 : Producer.runOffer 5
        (Producer.run [Frame.call (Tree.node Tree.nil 1 (Tree.node Tree.nil 2 Tree.nil))])
        [some Choice.send]
      = ([Event.send 1], Producer.run [Frame.select 2 Tree.nil], []) := by decide
  have hb : Producer.stepOffer (Producer.run [Frame.select 2 Tree.nil]) [] = none := by decide
  refine ⟨by decide, h5, hb, ?_, ?_⟩
  · intro n
    rcases Nat.lt_or_ge n 5 with hn | hn
    · interval_cases n <;> decide
    · obtain ⟨d, hd⟩ := Nat.exists_eq_add_of_le hn
      rw [hd, runOffer_trans 5 d _ _ _ _ _ _ _ _ h5 (runOffer_of_none hb d)]
      decide
  · intro ms s h
    exact ⟨quit_never_fires _ _ ms s h, (producer_never_exits _ _ ms s h).1 (by decide)⟩

end EquivalentBinaryTrees
